import Mathlib

/-!
# Verification of the fastbloom Bloom-filter engine

Shallow embedding of `src/fastbloom-rs/src/filter.rs` (the `BloomFilter`
type and the free functions `bit_set` / `bit_check`), together with a
model of the parts of its dependencies the code relies on:

* `bit_vec::BitVec` is modelled as a list of booleans, with the crate's
  documented semantics for `set` / `get` / `index` / `clear` / `is_empty` /
  `or` / `and` / `to_bytes` / `from_bytes` / `capacity`.  Operations that
  panic in Rust (out-of-range `set`/`index`, `or`/`and` on different
  lengths, `%` by zero) are modelled as `Option`-valued, `none` meaning a
  panic.
* `murmur3_x64_128` (crate `fastmurmur3`) is an external pure hash
  function producing a 128-bit value; every definition and theorem is
  parameterised over an arbitrary hash function `H : Bytes → Nat → Nat`
  (value, seed); the embedding reduces its output mod `2 ^ 128`.
* `FilterBuilder` lives in `builder.rs`, which is not part of the sources
  under verification; the fields and operations the filter code needs are
  modelled from the spec (see the doc comments below).

Machine integers are modelled as `Nat` with explicit `% 2 ^ 64` at the
points where the Rust code performs wrapping 64-bit arithmetic or casts.
-/

namespace Fastbloom

/-- Byte strings, the element type fed to `add`/`contains`. -/
abbrev Bytes := List Nat

/-- Model of `bit_vec::BitVec`: a growable bit array, as its list of bits. -/
structure BitVec where
  bits : List Bool
deriving DecidableEq, Repr

/-- `BitVec::len`: number of bits. -/
def BitVec.len (bv : BitVec) : Nat := bv.bits.length

/-- `BitVec::get(i)`: `Some` bit when `i < len`, `None` otherwise. -/
def BitVec.get (bv : BitVec) (i : Nat) : Option Bool := bv.bits[i]?

/-- `BitVec::set(i, b)`: writes bit `i`; panics (here: `none`) when `i ≥ len`. -/
def BitVec.set (bv : BitVec) (i : Nat) (b : Bool) : Option BitVec :=
  if i < bv.bits.length then some ⟨bv.bits.set i b⟩ else none

/-- The `Index` impl used by `bit_set.index(i)`: panics (here: `none`) out of range. -/
def BitVec.index (bv : BitVec) (i : Nat) : Option Bool := bv.bits[i]?

/-- `BitVec::from_elem(n, b)`: `n` copies of `b`. -/
def BitVec.from_elem (n : Nat) (b : Bool) : BitVec := ⟨List.replicate n b⟩

/-- `BitVec::clear()`: sets every bit to `false`, keeping the length. -/
def BitVec.clear (bv : BitVec) : BitVec := ⟨bv.bits.map fun _ => false⟩

/-- `BitVec::is_empty()`: whether the vector holds no bits (length zero). -/
def BitVec.is_empty (bv : BitVec) : Bool := bv.bits.isEmpty

/-- `BitVec::capacity()`: bits of allocated storage.  Storage is a vector of
32-bit blocks; a `BitVec` holding `len` bits allocates `⌈len / 32⌉` blocks,
so its capacity is that many blocks times 32. -/
def BitVec.capacity (bv : BitVec) : Nat := ((bv.len + 31) / 32) * 32

/-- `BitVec::or(other)`: in-place bitwise or; panics (here: `none`) when the
lengths differ. -/
def BitVec.or (a b : BitVec) : Option BitVec :=
  if a.len = b.len then some ⟨List.zipWith (fun x y => x || y) a.bits b.bits⟩ else none

/-- `BitVec::and(other)`: in-place bitwise and; panics (here: `none`) when the
lengths differ. -/
def BitVec.and (a b : BitVec) : Option BitVec :=
  if a.len = b.len then some ⟨List.zipWith (fun x y => x && y) a.bits b.bits⟩ else none

/-- The value of one packed byte: bits most-significant-bit first, missing
bits read as `false` (the padding `BitVec::to_bytes` applies to the last
byte). -/
def byteOf (l : List Bool) : Nat :=
  (List.range 8).foldl (fun acc t => acc * 2 + cond (l.getD t false) 1 0) 0

/-- The bits packed into bytes: byte `j` holds bits `8*j .. 8*j+7`,
most-significant-bit first; a final chunk of fewer than 8 bits is padded
with `false` (by `byteOf`). -/
def bytesOfBits : List Bool → List Nat
  | [] => []
  | a :: b :: c :: d :: e :: f :: g :: h :: rest =>
    byteOf [a, b, c, d, e, f, g, h] :: bytesOfBits rest
  | l => [byteOf l]

/-- `BitVec::to_bytes()`: packs the bits into bytes, bit `i` into byte `i/8`
at bit `7 - i%8` (MSB first), the final byte zero-padded. -/
def BitVec.to_bytes (bv : BitVec) : List Nat := bytesOfBits bv.bits

/-- The eight bits stored in one byte, most-significant first. -/
def bitsOfByte (b : Nat) : List Bool :=
  (List.range 8).map fun t => decide (b / 2 ^ (7 - t) % 2 = 1)

/-- `BitVec::from_bytes(bytes)`: bit `i` is bit `7 - i%8` of byte `i/8`;
the result has `bytes.length * 8` bits. -/
def BitVec.from_bytes (bytes : List Nat) : BitVec := ⟨(bytes.map bitsOfByte).flatten⟩

/-- Modelled from the spec: `FilterBuilder` is defined in `builder.rs`,
which is not among the sources; only the two fields the filter engine
reads are modelled: `size` (bit-array length `m`, a `u64`) and `hashes`
(probe count `k`, a `u32`). -/
structure FilterBuilder where
  size : Nat
  hashes : Nat
deriving DecidableEq, Repr

/-- Modelled from the spec: `from_size_and_hashes(size, hashes)` stores
`size` and `hashes` directly. -/
def FilterBuilder.from_size_and_hashes (size hashes : Nat) : FilterBuilder :=
  ⟨size, hashes⟩

/-- Modelled from the spec: completion is idempotent and "is safe to call
multiple times with no further effect once size/hashes are set"; every
configuration this model represents already has its `size` and `hashes`
set, so `complete` has no effect. -/
def FilterBuilder.complete (c : FilterBuilder) : FilterBuilder := c

/-- Modelled from the spec: `is_compatible_to(other)` is "true iff `size`
and `hashes` match exactly". -/
def FilterBuilder.is_compatible_to (a b : FilterBuilder) : Bool :=
  a.size == b.size && a.hashes == b.hashes

/-- `struct BloomFilter { config: FilterBuilder, bit_set: BitVec }`. -/
structure BloomFilter where
  config : FilterBuilder
  bit_set : BitVec
deriving DecidableEq, Repr

/-- First base hash: `(murmur3_x64_128(value, 0) % m) as u64`. -/
def h1 (H : Bytes → Nat → Nat) (value : Bytes) (m : Nat) : Nat :=
  H value 0 % 2 ^ 128 % m % 2 ^ 64

/-- Second base hash: `(murmur3_x64_128(value, 32) % m) as u64`. -/
def h2 (H : Bytes → Nat → Nat) (value : Bytes) (m : Nat) : Nat :=
  H value 32 % 2 ^ 128 % m % 2 ^ 64

/-- The combined probe position for loop index `i`:
`(hash1 + i * hash2) % m64`, the sum and product wrapping at `2 ^ 64` (`u64`). -/
def posOf (hash1 hash2 m64 i : Nat) : Nat := (hash1 + i * hash2) % 2 ^ 64 % m64

/-- The loop of `bit_set`: `for i in 1..k { bit_set.set((hash1 + i*hash2) % m, true) }`,
with the additions and multiplications wrapping at `2 ^ 64` (`u64`), the
`% m64` panicking (`none`) when `m64 = 0`, and `set` panicking out of range. -/
def bit_set_loop (hash1 hash2 m64 : Nat) : BitVec → List Nat → Option BitVec
  | bv, [] => some bv
  | bv, i :: is =>
    if m64 = 0 then none
    else
      match bv.set (posOf hash1 hash2 m64 i) true with
      | none => none
      | some bv2 => bit_set_loop hash1 hash2 m64 bv2 is

/-- `fn bit_set(bit_set: &mut BitVec, value: &[u8], m: u128, k: u64)`:
computes the two base hashes, sets the `k - 1` combined positions
(`for i in 1..k`), then sets position `hash1`. -/
def bit_set (H : Bytes → Nat → Nat) (bv : BitVec) (value : Bytes) (m k : Nat) :
    Option BitVec :=
  if m = 0 then none
  else
    match bit_set_loop (h1 H value m) (h2 H value m) (m % 2 ^ 64) bv
        (List.range' 1 (k - 1)) with
    | none => none
    | some bv2 => bv2.set (h1 H value m) true

/-- The loop of `bit_check`: returns `false` as soon as `res` is false,
otherwise reads the next combined position and conjoins it. -/
def bit_check_loop (bv : BitVec) (hash1 hash2 m64 : Nat) :
    Bool → List Nat → Option Bool
  | res, [] => some res
  | res, i :: is =>
    if res = false then some false
    else if m64 = 0 then none
    else
      match bv.index (posOf hash1 hash2 m64 i) with
      | none => none
      | some b => bit_check_loop bv hash1 hash2 m64 (res && b) is

/-- `fn bit_check(bit_set: &BitVec, value: &[u8], m: u128, k: u64) -> bool`:
reads position `hash1`, then the `k - 1` combined positions, short-circuiting
on the first unset bit. -/
def bit_check (H : Bytes → Nat → Nat) (bv : BitVec) (value : Bytes) (m k : Nat) :
    Option Bool :=
  if m = 0 then none
  else
    match bv.index (h1 H value m) with
    | none => none
    | some r =>
      bit_check_loop bv (h1 H value m) (h2 H value m) (m % 2 ^ 64) r
        (List.range' 1 (k - 1))

/-- `BloomFilter::new(config)`: completes the configuration and allocates a
zeroed bit array of `config.size` bits. -/
def BloomFilter.new (config : FilterBuilder) : BloomFilter :=
  ⟨config.complete, BitVec.from_elem config.complete.size false⟩

/-- `BloomFilter::from_bit_vec(bit_vec, hashes)`. -/
def BloomFilter.from_bit_vec (bv : BitVec) (hashes : Nat) : BloomFilter :=
  ⟨(FilterBuilder.from_size_and_hashes bv.len hashes).complete, bv⟩

/-- `BloomFilter::from_u8_array(array, hashes)`. -/
def BloomFilter.from_u8_array (array : List Nat) (hashes : Nat) : BloomFilter :=
  ⟨(FilterBuilder.from_size_and_hashes (array.length * 8) hashes).complete,
    BitVec.from_bytes array⟩

/-- `BloomFilter::add(element)`. -/
def BloomFilter.add (H : Bytes → Nat → Nat) (f : BloomFilter) (element : Bytes) :
    Option BloomFilter :=
  (Fastbloom.bit_set H f.bit_set element f.config.size f.config.hashes).map
    fun bs => ⟨f.config, bs⟩

/-- `BloomFilter::clear()`. -/
def BloomFilter.clear (f : BloomFilter) : BloomFilter :=
  ⟨f.config, f.bit_set.clear⟩

/-- `BloomFilter::contains(element)`. -/
def BloomFilter.contains (H : Bytes → Nat → Nat) (f : BloomFilter)
    (element : Bytes) : Option Bool :=
  Fastbloom.bit_check H f.bit_set element f.config.size f.config.hashes

/-- `BloomFilter::get(index)`. -/
def BloomFilter.get (f : BloomFilter) (index : Nat) : Option Bool :=
  f.bit_set.get index

/-- `BloomFilter::set(index, to)`; `BitVec::set` panics (`none`) out of range. -/
def BloomFilter.set (f : BloomFilter) (index : Nat) (b : Bool) :
    Option BloomFilter :=
  (f.bit_set.set index b).map fun bs => ⟨f.config, bs⟩

/-- `BloomFilter::get_bit_vec()`. -/
def BloomFilter.get_bit_vec (f : BloomFilter) : BitVec := f.bit_set

/-- `BloomFilter::get_u8_array()`. -/
def BloomFilter.get_u8_array (f : BloomFilter) : List Nat := f.bit_set.to_bytes

/-- `BloomFilter::compatible(other)`. -/
def BloomFilter.compatible (f other : BloomFilter) : Bool :=
  f.config.is_compatible_to other.config

/-- `BloomFilter::union(other)`: returns the updated receiver together with
the boolean result (`true` on compatible inputs after or-ing the bit
arrays, `false` with no mutation otherwise). -/
def BloomFilter.union (f other : BloomFilter) : Option (BloomFilter × Bool) :=
  if f.compatible other then
    (f.bit_set.or other.bit_set).map fun bs => (⟨f.config, bs⟩, true)
  else some (f, false)

/-- `BloomFilter::intersect(other)`: as `union`, with bitwise and. -/
def BloomFilter.intersect (f other : BloomFilter) : Option (BloomFilter × Bool) :=
  if f.compatible other then
    (f.bit_set.and other.bit_set).map fun bs => (⟨f.config, bs⟩, true)
  else some (f, false)

/-- `BloomFilter::is_empty()`: delegates to `BitVec::is_empty` (length test). -/
def BloomFilter.is_empty (f : BloomFilter) : Bool := f.bit_set.is_empty

/-- `BloomFilter::set_bit_vec(bit_vec)`:
`assert_eq!(self.config.size, bit_vec.capacity() as u64)` then installs the
new bit vector; a failed assertion panics (`none`). -/
def BloomFilter.set_bit_vec (f : BloomFilter) (bv : BitVec) : Option BloomFilter :=
  if f.config.size = bv.capacity then some ⟨f.config, bv⟩ else none

/-- The length invariant: the bit array holds exactly `config.size` bits. -/
def valid (f : BloomFilter) : Prop := f.bit_set.len = f.config.size

instance (f : BloomFilter) : Decidable (valid f) := by
  unfold valid; infer_instance

/-- A caller loop adding every element of a list in order. -/
def addAll (H : Bytes → Nat → Nat) (f : BloomFilter) : List Bytes → Option BloomFilter
  | [] => some f
  | e :: E =>
    match BloomFilter.add H f e with
    | none => none
    | some f2 => addAll H f2 E

/-- The `k - 1` combined probe positions of `bit_set`/`bit_check`, in loop
order (`i = 1 .. k-1`), computed in wrapping 64-bit arithmetic. -/
def combined (H : Bytes → Nat → Nat) (value : Bytes) (m k : Nat) : List Nat :=
  (List.range' 1 (k - 1)).map (posOf (h1 H value m) (h2 H value m) (m % 2 ^ 64))

/-- All probe positions an element hashes to, in the order `bit_check`
inspects them: `h1` first, then the combined positions. -/
def probes (H : Bytes → Nat → Nat) (value : Bytes) (m k : Nat) : List Nat :=
  h1 H value m :: combined H value m k

/-- The probe positions as the spec words them: `h1`, then
`(h1 + i*h2) mod m` for `i = 1 .. k-1` computed in exact unbounded integer
arithmetic. -/
def specProbes (H : Bytes → Nat → Nat) (value : Bytes) (m k : Nat) : List Nat :=
  (H value 0 % 2 ^ 128 % m) ::
    (List.range' 1 (k - 1)).map
      fun i => (H value 0 % 2 ^ 128 % m + i * (H value 32 % 2 ^ 128 % m)) % m

/-- Setting a list of positions of a bit list to `true`, in order. -/
def setTrue (l : List Bool) (ps : List Nat) : List Bool :=
  ps.foldl (fun l p => l.set p true) l

/-! ## Basic lemmas about the `BitVec` model -/

theorem BitVec.set_eq_some {bv : BitVec} {i : Nat} {b : Bool} {bv' : BitVec}
    (h : bv.set i b = some bv') :
    i < bv.bits.length ∧ bv' = ⟨bv.bits.set i b⟩ := by
  unfold BitVec.set at h
  split at h
  · exact ⟨by assumption, (Option.some_inj.1 h).symm⟩
  · exact absurd h (by simp)

theorem BitVec.set_eq_some_of_lt {bv : BitVec} {i : Nat} (b : Bool)
    (h : i < bv.bits.length) :
    bv.set i b = some ⟨bv.bits.set i b⟩ := by
  unfold BitVec.set
  rw [if_pos h]

theorem setTrue_nil (l : List Bool) : setTrue l [] = l := rfl

theorem setTrue_cons (l : List Bool) (p : Nat) (ps : List Nat) :
    setTrue l (p :: ps) = setTrue (l.set p true) ps := rfl

theorem setTrue_append (l : List Bool) (ps qs : List Nat) :
    setTrue l (ps ++ qs) = setTrue (setTrue l ps) qs :=
  List.foldl_append ..

theorem setTrue_length (ps : List Nat) (l : List Bool) :
    (setTrue l ps).length = l.length := by
  induction ps generalizing l with
  | nil => rfl
  | cons p ps ih => rw [setTrue_cons, ih, List.length_set]

theorem setTrue_getElem?_of_not_mem {j : Nat} {ps : List Nat} (h : j ∉ ps)
    (l : List Bool) : (setTrue l ps)[j]? = l[j]? := by
  induction ps generalizing l with
  | nil => rfl
  | cons p ps ih =>
    simp only [List.mem_cons, not_or] at h
    rw [setTrue_cons, ih h.2, List.getElem?_set_ne (Ne.symm h.1)]

theorem setTrue_getElem?_of_true {l : List Bool} {j : Nat}
    (h : l[j]? = some true) (ps : List Nat) :
    (setTrue l ps)[j]? = some true := by
  induction ps generalizing l with
  | nil => exact h
  | cons p ps ih =>
    rw [setTrue_cons]
    apply ih
    by_cases hpj : p = j
    · subst hpj
      have hj : p < l.length := by
        by_contra hc
        rw [List.getElem?_eq_none (by omega)] at h
        cases h
      simp [List.getElem?_set_self, hj]
    · rw [List.getElem?_set_ne hpj]
      exact h

theorem setTrue_getElem?_of_mem {j : Nat} {ps : List Nat} {l : List Bool}
    (hmem : j ∈ ps) (hlt : ∀ p ∈ ps, p < l.length) :
    (setTrue l ps)[j]? = some true := by
  induction ps generalizing l with
  | nil => cases hmem
  | cons p ps ih =>
    rw [setTrue_cons]
    rcases List.mem_cons.1 hmem with rfl | hj
    · apply setTrue_getElem?_of_true
      have hlen : j < l.length := hlt j (List.mem_cons_self j ps)
      simp [List.getElem?_set_self, hlen]
    · exact ih hj fun q hq => by
        rw [List.length_set]
        exact hlt q (List.mem_cons_of_mem _ hq)

/-! ## Characterization of the `bit_set` / `bit_check` loops -/

theorem bit_set_loop_eq_some {hash1 hash2 m64 : Nat} {bv : BitVec}
    {is : List Nat} (hm64 : m64 ≠ 0)
    (hlt : ∀ i ∈ is, posOf hash1 hash2 m64 i < bv.len) :
    bit_set_loop hash1 hash2 m64 bv is =
      some ⟨setTrue bv.bits (is.map (posOf hash1 hash2 m64))⟩ := by
  induction is generalizing bv with
  | nil => rfl
  | cons i is ih =>
    rw [bit_set_loop, if_neg hm64,
      BitVec.set_eq_some_of_lt true (hlt i (List.mem_cons_self i is))]
    show bit_set_loop hash1 hash2 m64
      ⟨bv.bits.set (posOf hash1 hash2 m64 i) true⟩ is = _
    rw [ih fun q hq => by
        have := hlt q (List.mem_cons_of_mem _ hq)
        simpa [BitVec.len] using this]
    rw [List.map_cons, setTrue_cons]

theorem bit_set_loop_some_inv {hash1 hash2 m64 : Nat} {bv bv' : BitVec}
    {is : List Nat} (h : bit_set_loop hash1 hash2 m64 bv is = some bv') :
    bv'.bits = setTrue bv.bits (is.map (posOf hash1 hash2 m64)) ∧
      (∀ i ∈ is, posOf hash1 hash2 m64 i < bv.len) ∧ (is ≠ [] → m64 ≠ 0) := by
  induction is generalizing bv with
  | nil =>
    cases h
    exact ⟨rfl, by simp, by simp⟩
  | cons i is ih =>
    rw [bit_set_loop] at h
    split at h
    · cases h
    case isFalse hm64 =>
      revert h
      cases hset : bv.set (posOf hash1 hash2 m64 i) true with
      | none => intro h; cases h
      | some bv2 =>
        intro h
        obtain ⟨hi, rfl⟩ := BitVec.set_eq_some hset
        obtain ⟨h1', h2', _⟩ := ih h
        refine ⟨by rw [h1', List.map_cons, setTrue_cons], ?_, fun _ => hm64⟩
        intro q hq
        rcases List.mem_cons.1 hq with rfl | hq'
        · exact hi
        · have := h2' q hq'
          rwa [BitVec.len, List.length_set] at this

theorem bit_check_loop_eq {bv : BitVec} {hash1 hash2 m64 : Nat} {is : List Nat}
    (hm64 : m64 ≠ 0)
    (hlt : ∀ i ∈ is, posOf hash1 hash2 m64 i < bv.len) (res : Bool) :
    bit_check_loop bv hash1 hash2 m64 res is =
      some (res && (is.map (posOf hash1 hash2 m64)).all
        fun p => bv.bits.getD p false) := by
  induction is generalizing res with
  | nil => simp [bit_check_loop]
  | cons i is ih =>
    cases res with
    | false => simp [bit_check_loop]
    | true =>
      have hi : posOf hash1 hash2 m64 i < bv.bits.length :=
        hlt i (List.mem_cons_self i is)
      rw [bit_check_loop, if_neg (by simp), if_neg hm64]
      rw [show bv.index (posOf hash1 hash2 m64 i) =
        some (bv.bits.getD (posOf hash1 hash2 m64 i) false) from by
          simp [BitVec.index, List.getD_eq_getElem?_getD,
            List.getElem?_eq_getElem hi]]
      show bit_check_loop bv hash1 hash2 m64
        (true && bv.bits.getD (posOf hash1 hash2 m64 i) false) is = _
      rw [ih fun q hq => hlt q (List.mem_cons_of_mem _ hq)]
      simp [Bool.and_assoc]

theorem bit_check_loop_true {bv : BitVec} {hash1 hash2 m64 : Nat} {is : List Nat}
    (hall : ∀ i ∈ is, bv.bits[posOf hash1 hash2 m64 i]? = some true)
    (hm64 : m64 ≠ 0 ∨ is = []) :
    bit_check_loop bv hash1 hash2 m64 true is = some true := by
  induction is with
  | nil => rfl
  | cons i is ih =>
    have hm64' : m64 ≠ 0 := by
      rcases hm64 with h | h
      · exact h
      · cases h
    rw [bit_check_loop, if_neg (by simp), if_neg hm64', BitVec.index,
      hall i (List.mem_cons_self i is)]
    exact ih (fun q hq => hall q (List.mem_cons_of_mem _ hq)) (Or.inl hm64')

theorem bit_check_loop_true_inv {bv : BitVec} {hash1 hash2 m64 : Nat}
    {is : List Nat} {res : Bool}
    (h : bit_check_loop bv hash1 hash2 m64 res is = some true) :
    res = true ∧ (∀ i ∈ is, bv.bits[posOf hash1 hash2 m64 i]? = some true) ∧
      (is ≠ [] → m64 ≠ 0) := by
  induction is generalizing res with
  | nil =>
    cases h
    exact ⟨rfl, by simp, by simp⟩
  | cons i is ih =>
    cases res with
    | false => rw [bit_check_loop, if_pos rfl] at h; cases h
    | true =>
      rw [bit_check_loop, if_neg (by simp)] at h
      split at h
      · cases h
      case isFalse hm64 =>
        revert h
        cases hidx : bv.index (posOf hash1 hash2 m64 i) with
        | none => intro h; cases h
        | some b =>
          intro h
          obtain ⟨hb, hrest, _⟩ := ih h
          rw [Bool.true_and] at hb
          subst hb
          refine ⟨rfl, ?_, fun _ => hm64⟩
          intro q hq
          rcases List.mem_cons.1 hq with rfl | hq'
          · exact hidx
          · exact hrest q hq'

/-! ## Characterization of `bit_set` and `bit_check` -/

theorem h1_lt {H : Bytes → Nat → Nat} {v : Bytes} {m : Nat} (hm : m ≠ 0) :
    h1 H v m < m :=
  calc H v 0 % 2 ^ 128 % m % 2 ^ 64 ≤ H v 0 % 2 ^ 128 % m := Nat.mod_le _ _
  _ < m := Nat.mod_lt _ (Nat.pos_of_ne_zero hm)

theorem probes_lt (H : Bytes → Nat → Nat) {v : Bytes} {m : Nat} (k : Nat)
    (hm : m ≠ 0) (h64 : m < 2 ^ 64) :
    ∀ p ∈ probes H v m k, p < m := by
  intro p hp
  rcases List.mem_cons.1 hp with rfl | hp'
  · exact h1_lt hm
  · obtain ⟨i, _, rfl⟩ := List.mem_map.1 hp'
    have hm64 : m % 2 ^ 64 = m := Nat.mod_eq_of_lt h64
    unfold posOf
    rw [hm64]
    exact Nat.mod_lt _ (Nat.pos_of_ne_zero hm)

theorem bit_set_eq_some {H : Bytes → Nat → Nat} {bv : BitVec} {v : Bytes}
    {m k : Nat} (hm : m ≠ 0) (h64 : m < 2 ^ 64)
    (hlt : ∀ p ∈ probes H v m k, p < bv.len) :
    bit_set H bv v m k =
      some ⟨setTrue bv.bits (combined H v m k ++ [h1 H v m])⟩ := by
  have hm64 : m % 2 ^ 64 = m := Nat.mod_eq_of_lt h64
  have hloop : bit_set_loop (h1 H v m) (h2 H v m) (m % 2 ^ 64) bv
      (List.range' 1 (k - 1)) = some ⟨setTrue bv.bits (combined H v m k)⟩ := by
    apply bit_set_loop_eq_some (by rw [hm64]; exact hm)
    intro i hi
    exact hlt _ (List.mem_cons_of_mem _ (List.mem_map_of_mem _ hi))
  rw [bit_set, if_neg hm, hloop]
  show BitVec.set ⟨setTrue bv.bits (combined H v m k)⟩ (h1 H v m) true = _
  rw [BitVec.set_eq_some_of_lt true (by
    show h1 H v m < (setTrue bv.bits (combined H v m k)).length
    rw [setTrue_length]
    exact hlt _ (List.mem_cons_self _ _))]
  rw [setTrue_append]
  rfl

theorem bit_set_some_inv {H : Bytes → Nat → Nat} {bv : BitVec} {v : Bytes}
    {m k : Nat} {bv' : BitVec} (h : bit_set H bv v m k = some bv') :
    m ≠ 0 ∧ bv'.bits = setTrue bv.bits (combined H v m k ++ [h1 H v m]) ∧
      ∀ p ∈ probes H v m k, p < bv.len := by
  rw [bit_set] at h
  split at h
  · cases h
  case isFalse hm =>
    revert h
    cases hloop : bit_set_loop (h1 H v m) (h2 H v m) (m % 2 ^ 64) bv
        (List.range' 1 (k - 1)) with
    | none => intro h; cases h
    | some bv2 =>
      intro h
      obtain ⟨hbits2, hlt2, _⟩ := bit_set_loop_some_inv hloop
      obtain ⟨hlt1, rfl⟩ := BitVec.set_eq_some h
      have hlen2 : bv2.bits.length = bv.bits.length := by
        rw [hbits2, setTrue_length]
      refine ⟨hm, ?_, ?_⟩
      · show bv2.bits.set (h1 H v m) true = _
        rw [setTrue_append, hbits2]
        rfl
      · intro p hp
        rcases List.mem_cons.1 hp with rfl | hp'
        · show h1 H v m < bv.bits.length
          rw [← hlen2]
          exact hlt1
        · obtain ⟨i, hi, rfl⟩ := List.mem_map.1 hp'
          exact hlt2 i hi

theorem bit_check_eq_all {H : Bytes → Nat → Nat} {bv : BitVec} {v : Bytes}
    {m k : Nat} (hm : m ≠ 0) (h64 : m < 2 ^ 64)
    (hlt : ∀ p ∈ probes H v m k, p < bv.len) :
    bit_check H bv v m k =
      some ((probes H v m k).all fun p => bv.bits.getD p false) := by
  have hm64 : m % 2 ^ 64 = m := Nat.mod_eq_of_lt h64
  have hh1 : h1 H v m < bv.bits.length := hlt _ (List.mem_cons_self _ _)
  rw [bit_check, if_neg hm]
  rw [show bv.index (h1 H v m) = some (bv.bits.getD (h1 H v m) false) from by
    simp [BitVec.index, List.getD_eq_getElem?_getD, List.getElem?_eq_getElem hh1]]
  show bit_check_loop bv (h1 H v m) (h2 H v m) (m % 2 ^ 64)
    (bv.bits.getD (h1 H v m) false) (List.range' 1 (k - 1)) = _
  rw [bit_check_loop_eq (by rw [hm64]; exact hm)
    (fun i hi => hlt _ (List.mem_cons_of_mem _ (List.mem_map_of_mem _ hi))) _]
  rfl

theorem bit_check_true_of {H : Bytes → Nat → Nat} {bv : BitVec} {v : Bytes}
    {m k : Nat} (hm : m ≠ 0)
    (hall : ∀ p ∈ probes H v m k, bv.bits[p]? = some true)
    (hm64 : m % 2 ^ 64 ≠ 0 ∨ List.range' 1 (k - 1) = []) :
    bit_check H bv v m k = some true := by
  rw [bit_check, if_neg hm, BitVec.index, hall _ (List.mem_cons_self _ _)]
  show bit_check_loop bv (h1 H v m) (h2 H v m) (m % 2 ^ 64) true
    (List.range' 1 (k - 1)) = some true
  apply bit_check_loop_true
  · intro i hi
    exact hall _ (List.mem_cons_of_mem _ (List.mem_map_of_mem _ hi))
  · exact hm64

theorem bit_check_some_true_inv {H : Bytes → Nat → Nat} {bv : BitVec}
    {v : Bytes} {m k : Nat} (h : bit_check H bv v m k = some true) :
    m ≠ 0 ∧ (∀ p ∈ probes H v m k, bv.bits[p]? = some true) ∧
      (List.range' 1 (k - 1) ≠ [] → m % 2 ^ 64 ≠ 0) := by
  rw [bit_check] at h
  split at h
  · cases h
  case isFalse hm =>
    revert h
    cases hidx : bv.index (h1 H v m) with
    | none => intro h; cases h
    | some r =>
      intro h
      obtain ⟨hr, hrest, hm64⟩ := bit_check_loop_true_inv h
      subst hr
      refine ⟨hm, ?_, hm64⟩
      intro p hp
      rcases List.mem_cons.1 hp with rfl | hp'
      · exact hidx
      · obtain ⟨i, hi, rfl⟩ := List.mem_map.1 hp'
        exact hrest i hi

/-! ## BloomFilter-level lemmas -/

theorem mem_probes {H : Bytes → Nat → Nat} {v : Bytes} {m k p : Nat} :
    p ∈ combined H v m k ++ [h1 H v m] ↔ p ∈ probes H v m k := by
  simp [probes, List.mem_append, or_comm]

theorem valid_new (c : FilterBuilder) : valid (BloomFilter.new c) := by
  simp [valid, BloomFilter.new, BitVec.from_elem, BitVec.len,
    FilterBuilder.complete]

theorem add_eq_some {H : Bytes → Nat → Nat} {f : BloomFilter} {e : Bytes}
    (hv : valid f) (hm : f.config.size ≠ 0) (h64 : f.config.size < 2 ^ 64) :
    BloomFilter.add H f e = some ⟨f.config,
      ⟨setTrue f.bit_set.bits
        (combined H e f.config.size f.config.hashes ++
          [h1 H e f.config.size])⟩⟩ := by
  rw [BloomFilter.add, bit_set_eq_some hm h64 ?hlt]
  · rfl
  case hlt =>
    intro p hp
    rw [valid] at hv
    rw [hv]
    exact probes_lt H _ hm h64 p hp

theorem add_some_inv {H : Bytes → Nat → Nat} {f : BloomFilter} {e : Bytes}
    {f' : BloomFilter} (h : BloomFilter.add H f e = some f') :
    f.config.size ≠ 0 ∧ f'.config = f.config ∧
      f'.bit_set.bits = setTrue f.bit_set.bits
        (combined H e f.config.size f.config.hashes ++ [h1 H e f.config.size]) ∧
      ∀ p ∈ probes H e f.config.size f.config.hashes, p < f.bit_set.len := by
  rw [BloomFilter.add] at h
  cases hbs : bit_set H f.bit_set e f.config.size f.config.hashes with
  | none => rw [hbs] at h; cases h
  | some bs =>
    rw [hbs] at h
    cases h
    obtain ⟨hm, hbits, hlt⟩ := bit_set_some_inv hbs
    exact ⟨hm, rfl, hbits, hlt⟩

theorem add_len {H : Bytes → Nat → Nat} {f : BloomFilter} {e : Bytes}
    {f' : BloomFilter} (h : BloomFilter.add H f e = some f') :
    f'.bit_set.len = f.bit_set.len := by
  obtain ⟨_, _, hbits, _⟩ := add_some_inv h
  show f'.bit_set.bits.length = f.bit_set.bits.length
  rw [hbits, setTrue_length]

theorem add_valid {H : Bytes → Nat → Nat} {f : BloomFilter} {e : Bytes}
    {f' : BloomFilter} (h : BloomFilter.add H f e = some f') (hv : valid f) :
    valid f' := by
  obtain ⟨_, hconf, _, _⟩ := add_some_inv h
  rw [valid, add_len h, hconf]
  exact hv

theorem add_mono {H : Bytes → Nat → Nat} {f : BloomFilter} {e : Bytes}
    {f' : BloomFilter} (h : BloomFilter.add H f e = some f') :
    ∀ j : Nat, f.bit_set.bits[j]? = some true →
      f'.bit_set.bits[j]? = some true := by
  obtain ⟨_, _, hbits, _⟩ := add_some_inv h
  intro j hj
  rw [hbits]
  exact setTrue_getElem?_of_true hj _

theorem add_probes_set {H : Bytes → Nat → Nat} {f : BloomFilter} {e : Bytes}
    {f' : BloomFilter} (h : BloomFilter.add H f e = some f') :
    ∀ p ∈ probes H e f.config.size f.config.hashes,
      f'.bit_set.bits[p]? = some true := by
  obtain ⟨_, _, hbits, hlt⟩ := add_some_inv h
  intro p hp
  rw [hbits]
  apply setTrue_getElem?_of_mem (mem_probes.2 hp)
  intro q hq
  exact hlt q (mem_probes.1 hq)

theorem contains_mono {H : Bytes → Nat → Nat} {f f' : BloomFilter} {e' : Bytes}
    (hconf : f'.config = f.config)
    (hmono : ∀ j : Nat, f.bit_set.bits[j]? = some true →
      f'.bit_set.bits[j]? = some true)
    (h : BloomFilter.contains H f e' = some true) :
    BloomFilter.contains H f' e' = some true := by
  rw [BloomFilter.contains] at h ⊢
  obtain ⟨hm, hall, hm64⟩ := bit_check_some_true_inv h
  rw [hconf]
  apply bit_check_true_of hm
  · intro p hp
    exact hmono p (hall p hp)
  · by_cases hr : List.range' 1 (f.config.hashes - 1) = []
    · exact Or.inr hr
    · exact Or.inl (hm64 hr)

theorem contains_true_of_probes {H : Bytes → Nat → Nat} {f : BloomFilter}
    {e : Bytes} (hm : f.config.size ≠ 0) (h64 : f.config.size < 2 ^ 64)
    (hall : ∀ p ∈ probes H e f.config.size f.config.hashes,
      f.bit_set.bits[p]? = some true) :
    BloomFilter.contains H f e = some true := by
  rw [BloomFilter.contains]
  apply bit_check_true_of hm hall
  left
  rw [Nat.mod_eq_of_lt h64]
  exact hm

theorem addAll_spec (H : Bytes → Nat → Nat) (E : List Bytes) (f : BloomFilter)
    (hv : valid f) (hm : f.config.size ≠ 0) (h64 : f.config.size < 2 ^ 64) :
    ∃ g, addAll H f E = some g ∧ g.config = f.config ∧ valid g ∧
      (∀ j : Nat, f.bit_set.bits[j]? = some true →
        g.bit_set.bits[j]? = some true) ∧
      ∀ e ∈ E, ∀ p ∈ probes H e f.config.size f.config.hashes,
        g.bit_set.bits[p]? = some true := by
  induction E generalizing f with
  | nil => exact ⟨f, rfl, rfl, hv, fun j h => h, by simp⟩
  | cons e E ih =>
    have hadd := @add_eq_some H f e hv hm h64
    obtain ⟨g, hg, hgconf, hgvalid, hgmono, hgprobes⟩ :=
      ih ⟨f.config, ⟨setTrue f.bit_set.bits
          (combined H e f.config.size f.config.hashes ++
            [h1 H e f.config.size])⟩⟩
        (add_valid hadd hv) hm h64
    refine ⟨g, ?_, hgconf, hgvalid, ?_, ?_⟩
    · rw [addAll, hadd]
      exact hg
    · intro j hj
      exact hgmono j (add_mono hadd j hj)
    · intro e' he' p hp
      rcases List.mem_cons.1 he' with rfl | he''
      · exact hgmono p (add_probes_set hadd p hp)
      · exact hgprobes e' he'' p hp

/-! ## Concrete values used by witnesses -/

/-- A concrete hash function used to instantiate witness theorems. -/
def hashW : Bytes → Nat → Nat := fun _ _ => 0

/-- The filter obtained by adding `[]` (under `hashW`) to a fresh filter of
size 8 with one hash. -/
def filterW : BloomFilter :=
  ⟨⟨8, 1⟩, ⟨[true, false, false, false, false, false, false, false]⟩⟩

/-! ## The claims -/

/-- C1 — No false negatives: for every hash function, every
configuration whose size is a positive `u64` value, and every finite
sequence `E` of byte-string elements, adding every element of `E` (in
order) to a fresh filter succeeds, and afterwards `contains e` returns
`true` for every `e ∈ E`. -/
theorem C1_no_false_negatives (H : Bytes → Nat → Nat) (c : FilterBuilder)
    (E : List Bytes) (hm : c.size ≠ 0) (h64 : c.size < 2 ^ 64)
    (e : Bytes) (he : e ∈ E) :
    ∃ g, addAll H (BloomFilter.new c) E = some g ∧
      BloomFilter.contains H g e = some true := by
  obtain ⟨g, hg, hgconf, _, _, hgprobes⟩ :=
    addAll_spec H E (BloomFilter.new c) (valid_new c) hm h64
  have hgc : g.config = c := hgconf
  refine ⟨g, hg, ?_⟩
  apply contains_true_of_probes
  · rw [hgc]; exact hm
  · rw [hgc]; exact h64
  · intro p hp
    apply hgprobes e he
    rw [hgc] at hp
    exact hp

theorem C1_witness :
    (⟨8, 1⟩ : FilterBuilder).size ≠ 0 ∧
    (⟨8, 1⟩ : FilterBuilder).size < 2 ^ 64 ∧
    ([] : Bytes) ∈ [([] : Bytes)] ∧
    ∃ g, addAll hashW (BloomFilter.new ⟨8, 1⟩) [[]] = some g ∧
      BloomFilter.contains hashW g [] = some true :=
  ⟨by decide, by decide, by decide,
    C1_no_false_negatives hashW ⟨8, 1⟩ [[]] (by decide) (by decide) [] (by decide)⟩

/-- C3 — Union and intersect succeed iff compatible, atomic on failure:
for valid filters `A`, `B`, when the configurations agree on `size` and
`hashes`, `union` (resp. `intersect`) returns `true` and replaces `A`'s bit
array by the pointwise or (resp. and) with `B`'s; otherwise both return
`false` and leave `A`'s bit array and configuration unchanged. -/
theorem C3_union_intersect (A B : BloomFilter) (ha : valid A) (hb : valid B) :
    (A.config.size = B.config.size ∧ A.config.hashes = B.config.hashes →
      BloomFilter.union A B = some (⟨A.config,
        ⟨List.zipWith (fun x y => x || y) A.bit_set.bits B.bit_set.bits⟩⟩,
        true) ∧
      BloomFilter.intersect A B = some (⟨A.config,
        ⟨List.zipWith (fun x y => x && y) A.bit_set.bits B.bit_set.bits⟩⟩,
        true)) ∧
    (¬(A.config.size = B.config.size ∧ A.config.hashes = B.config.hashes) →
      BloomFilter.union A B = some (A, false) ∧
      BloomFilter.intersect A B = some (A, false)) := by
  constructor
  · rintro ⟨hs, hh⟩
    have hcomp : BloomFilter.compatible A B = true := by
      simp [BloomFilter.compatible, FilterBuilder.is_compatible_to, hs, hh]
    have hlen : A.bit_set.len = B.bit_set.len := by
      rw [valid] at ha hb
      rw [ha, hb]
      exact hs
    constructor
    · rw [BloomFilter.union, if_pos hcomp, BitVec.or, if_pos hlen]
      rfl
    · rw [BloomFilter.intersect, if_pos hcomp, BitVec.and, if_pos hlen]
      rfl
  · intro hnc
    have hcomp : BloomFilter.compatible A B = false := by
      simp only [BloomFilter.compatible, FilterBuilder.is_compatible_to,
        Bool.and_eq_false_iff, beq_eq_false_iff_ne, ne_eq]
      tauto
    constructor
    · simp [BloomFilter.union, hcomp]
    · simp [BloomFilter.intersect, hcomp]

theorem C3_witness :
    valid (BloomFilter.new ⟨8, 1⟩) ∧ valid (BloomFilter.new ⟨4, 1⟩) ∧
    BloomFilter.union (BloomFilter.new ⟨8, 1⟩) (BloomFilter.new ⟨4, 1⟩) =
      some (BloomFilter.new ⟨8, 1⟩, false) :=
  ⟨by decide, by decide,
    ((C3_union_intersect (BloomFilter.new ⟨8, 1⟩) (BloomFilter.new ⟨4, 1⟩)
      (by decide) (by decide)).2 (by decide)).1⟩

/-- C5 — The code violates the claim: on a freshly cleared filter of
size 8 every bit is `false` and the configuration is unchanged, yet
`is_empty()` returns `false`, because the code delegates to
`BitVec::is_empty`, which tests whether the *length* is zero rather than
whether any bit is set. -/
theorem C5_is_empty_divergence :
    ((BloomFilter.new ⟨8, 1⟩).clear.bit_set.bits.all fun b => !b) = true ∧
    (BloomFilter.new ⟨8, 1⟩).clear.config = ⟨8, 1⟩ ∧
    BloomFilter.is_empty (BloomFilter.new ⟨8, 1⟩).clear = false ∧
    BloomFilter.is_empty (BloomFilter.new ⟨8, 1⟩) = false := by
  refine ⟨by decide, by decide, by decide, by decide⟩

/-- C6 — The code violates the claim: `set_bit_vec` asserts on
`BitVec::capacity()` (allocated storage, a multiple of the 32-bit block
size) instead of the length in bits.  A replacement of exactly matching
length 8 is rejected (panic, modelled as `none`), while a replacement of
length 40 ≠ 64 is accepted by a size-64 filter because its capacity is
2 blocks = 64 bits. -/
theorem C6_set_bit_vec_divergence :
    BloomFilter.set_bit_vec (BloomFilter.new ⟨8, 1⟩)
      ⟨List.replicate 8 false⟩ = none ∧
    BloomFilter.set_bit_vec (BloomFilter.new ⟨64, 1⟩)
      ⟨List.replicate 40 false⟩ =
      some ⟨⟨64, 1⟩, ⟨List.replicate 40 false⟩⟩ := by
  refine ⟨by decide, by decide⟩

/-- C7 — The code violates the claimed invariant: `set_bit_vec` on a
size-64 filter accepts a bit vector of length 40 (whose capacity is 64),
producing a filter whose bit-array length no longer equals `config.size`. -/
theorem C7_invariant_violation :
    valid (BloomFilter.new ⟨64, 1⟩) ∧
    BloomFilter.set_bit_vec (BloomFilter.new ⟨64, 1⟩)
      ⟨List.replicate 40 false⟩ =
      some ⟨⟨64, 1⟩, ⟨List.replicate 40 false⟩⟩ ∧
    ¬ valid (⟨⟨64, 1⟩, ⟨List.replicate 40 false⟩⟩ : BloomFilter) := by
  refine ⟨by decide, by decide, by decide⟩

/-- C9 — `get` is total at the boundary: on a valid filter, `get i`
returns `none` when `i ≥ config.size` (and never panics), returns the
stored bit when `i < config.size`, and `set i v` with `i ≥ config.size`
fails loudly (panic, modelled as `none`). -/
theorem C9_get_set_boundary (f : BloomFilter) (i : Nat) (hv : valid f) :
    (f.config.size ≤ i → BloomFilter.get f i = none ∧
      ∀ b : Bool, BloomFilter.set f i b = none) ∧
    (i < f.config.size →
      BloomFilter.get f i = some (f.bit_set.bits.getD i false)) := by
  rw [valid, BitVec.len] at hv
  constructor
  · intro hle
    constructor
    · rw [BloomFilter.get, BitVec.get, List.getElem?_eq_none (by omega)]
    · intro b
      rw [BloomFilter.set, BitVec.set, if_neg (by omega)]
      rfl
  · intro hlt
    have hlt' : i < f.bit_set.bits.length := by omega
    rw [BloomFilter.get, BitVec.get]
    simp [List.getD_eq_getElem?_getD, List.getElem?_eq_getElem hlt']

theorem C9_witness :
    valid (BloomFilter.new ⟨8, 1⟩) ∧
    (⟨8, 1⟩ : FilterBuilder).size ≤ 9 ∧
    BloomFilter.get (BloomFilter.new ⟨8, 1⟩) 9 = none :=
  ⟨by decide, by decide,
    ((C9_get_set_boundary (BloomFilter.new ⟨8, 1⟩) 9 (by decide)).1
      (by decide)).1⟩

/-- C10 — `add` is monotone and pure on the configuration: whenever
`add` succeeds, the configuration is unchanged, every bit that was set
stays set, and consequently every element `contains` reported `true` is
still reported `true`. -/
theorem C10_add_monotone (H : Bytes → Nat → Nat) (f f' : BloomFilter)
    (e : Bytes) (h : BloomFilter.add H f e = some f') :
    f'.config = f.config ∧
      (∀ j : Nat, f.bit_set.bits[j]? = some true →
        f'.bit_set.bits[j]? = some true) ∧
      ∀ e' : Bytes, BloomFilter.contains H f e' = some true →
        BloomFilter.contains H f' e' = some true := by
  obtain ⟨_, hconf, _, _⟩ := add_some_inv h
  exact ⟨hconf, add_mono h, fun e' => contains_mono hconf (add_mono h)⟩

theorem C10_witness :
    BloomFilter.add hashW (BloomFilter.new ⟨8, 1⟩) [] = some filterW ∧
    (filterW.config = (BloomFilter.new ⟨8, 1⟩).config ∧
      (∀ j : Nat, (BloomFilter.new ⟨8, 1⟩).bit_set.bits[j]? = some true →
        filterW.bit_set.bits[j]? = some true) ∧
      ∀ e' : Bytes,
        BloomFilter.contains hashW (BloomFilter.new ⟨8, 1⟩) e' = some true →
        BloomFilter.contains hashW filterW e' = some true) :=
  ⟨by decide,
    C10_add_monotone hashW (BloomFilter.new ⟨8, 1⟩) filterW [] (by decide)⟩

theorem zipWith_or_getElem?_left {a b : List Bool} (hlen : a.length = b.length)
    {j : Nat} (h : a[j]? = some true) :
    (List.zipWith (fun x y => x || y) a b)[j]? = some true := by
  have hj : j < a.length := by
    by_contra hc
    rw [List.getElem?_eq_none (by omega)] at h
    cases h
  rw [List.getElem?_eq_getElem hj] at h
  rw [List.getElem?_zipWith, List.getElem?_eq_getElem hj,
    List.getElem?_eq_getElem (by omega : j < b.length)]
  rw [Option.some_inj.1 h]
  rfl

theorem zipWith_or_getElem?_right {a b : List Bool} (hlen : a.length = b.length)
    {j : Nat} (h : b[j]? = some true) :
    (List.zipWith (fun x y => x || y) a b)[j]? = some true := by
  have hj : j < b.length := by
    by_contra hc
    rw [List.getElem?_eq_none (by omega)] at h
    cases h
  rw [List.getElem?_eq_getElem hj] at h
  rw [List.getElem?_zipWith, List.getElem?_eq_getElem hj,
    List.getElem?_eq_getElem (by omega : j < a.length)]
  rw [Option.some_inj.1 h]
  simp

/-- C8 — Union correctness: for any configuration with positive `u64`
size and any two element lists `Sa`, `Sb` added to fresh filters `A`, `B`
of that configuration, `A.union(B)` succeeds with result `true` and the
union filter reports `contains x = true` for every `x ∈ Sa ∪ Sb`. -/
theorem C8_union_correctness (H : Bytes → Nat → Nat) (c : FilterBuilder)
    (Sa Sb : List Bytes) (hm : c.size ≠ 0) (h64 : c.size < 2 ^ 64)
    (x : Bytes) (hx : x ∈ Sa ∨ x ∈ Sb) :
    ∃ A B AB, addAll H (BloomFilter.new c) Sa = some A ∧
      addAll H (BloomFilter.new c) Sb = some B ∧
      BloomFilter.union A B = some (AB, true) ∧
      BloomFilter.contains H AB x = some true := by
  obtain ⟨A, hA, hAconf, hAvalid, _, hAprobes⟩ :=
    addAll_spec H Sa (BloomFilter.new c) (valid_new c) hm h64
  obtain ⟨B, hB, hBconf, hBvalid, _, hBprobes⟩ :=
    addAll_spec H Sb (BloomFilter.new c) (valid_new c) hm h64
  have hAc : A.config = c := hAconf
  have hBc : B.config = c := hBconf
  have hcomp : BloomFilter.compatible A B = true := by
    simp [BloomFilter.compatible, FilterBuilder.is_compatible_to, hAc, hBc]
  have hAlen : A.bit_set.bits.length = c.size := by
    rw [valid, BitVec.len] at hAvalid
    rw [hAvalid, hAc]
  have hBlen : B.bit_set.bits.length = c.size := by
    rw [valid, BitVec.len] at hBvalid
    rw [hBvalid, hBc]
  have hlen : A.bit_set.len = B.bit_set.len := by
    show A.bit_set.bits.length = B.bit_set.bits.length
    rw [hAlen, hBlen]
  refine ⟨A, B, ⟨A.config,
    ⟨List.zipWith (fun x y => x || y) A.bit_set.bits B.bit_set.bits⟩⟩,
    hA, hB, ?_, ?_⟩
  · rw [BloomFilter.union, if_pos hcomp, BitVec.or, if_pos hlen]
    rfl
  · apply contains_true_of_probes
    · show A.config.size ≠ 0
      rw [hAc]
      exact hm
    · show A.config.size < 2 ^ 64
      rw [hAc]
      exact h64
    · intro p hp
      have hp' : p ∈ probes H x c.size c.hashes := by
        rw [← hAc]
        exact hp
      show (List.zipWith (fun x y => x || y) A.bit_set.bits
        B.bit_set.bits)[p]? = some true
      rcases hx with hxa | hxb
      · exact zipWith_or_getElem?_left (by rw [hAlen, hBlen])
          (hAprobes x hxa p hp')
      · exact zipWith_or_getElem?_right (by rw [hAlen, hBlen])
          (hBprobes x hxb p hp')

theorem C8_witness :
    (⟨8, 1⟩ : FilterBuilder).size ≠ 0 ∧
    (⟨8, 1⟩ : FilterBuilder).size < 2 ^ 64 ∧
    (([] : Bytes) ∈ [([] : Bytes)] ∨ ([] : Bytes) ∈ ([] : List Bytes)) ∧
    ∃ A B AB, addAll hashW (BloomFilter.new ⟨8, 1⟩) [[]] = some A ∧
      addAll hashW (BloomFilter.new ⟨8, 1⟩) [] = some B ∧
      BloomFilter.union A B = some (AB, true) ∧
      BloomFilter.contains hashW AB [] = some true :=
  ⟨by decide, by decide, by decide,
    C8_union_correctness hashW ⟨8, 1⟩ [[]] [] (by decide) (by decide) []
      (by decide)⟩

/-- Hash function witnessing the 64-bit wrap-around in the probe
arithmetic: every hash value is `2 ^ 64 - 2`. -/
def hashCex : Bytes → Nat → Nat := fun _ _ => 2 ^ 64 - 2

/-- C2 (counterexample) — With `m = 2 ^ 64 - 1`, `k = 2` and base
hashes `h1 = h2 = 2 ^ 64 - 2`, the spec's exact-arithmetic probe set is
`{2 ^ 64 - 2, 2 ^ 64 - 3}`, but after `add` the bit at the claimed
position `2 ^ 64 - 3` is still `false`: the code computes
`hash1 + 1 * hash2` in wrapping `u64` arithmetic, landing on `2 ^ 64 - 4`
instead. -/
theorem C2_counterexample :
    specProbes hashCex [] (2 ^ 64 - 1) 2 = [2 ^ 64 - 2, 2 ^ 64 - 3] ∧
    (BloomFilter.add hashCex (BloomFilter.new ⟨2 ^ 64 - 1, 2⟩) []).bind
      (fun f' => BloomFilter.get f' (2 ^ 64 - 3)) = some false := by
  constructor
  · decide
  · have hm : ((⟨2 ^ 64 - 1, 2⟩ : FilterBuilder)).size ≠ 0 := by decide
    have h64 : ((⟨2 ^ 64 - 1, 2⟩ : FilterBuilder)).size < 2 ^ 64 := by decide
    rw [@add_eq_some hashCex (BloomFilter.new ⟨2 ^ 64 - 1, 2⟩) []
      (valid_new _) hm h64]
    rw [Option.some_bind]
    simp only [BloomFilter.get, BitVec.get]
    rw [setTrue_getElem?_of_not_mem (by decide)]
    simp only [BloomFilter.new, FilterBuilder.complete, BitVec.from_elem]
    rw [List.getElem?_replicate, if_pos (by omega)]

/-- C2 (amended) — Probe positions are double hashing with wrapping
64-bit arithmetic: with `m = config.size` a positive `u64` value and
`k = config.hashes`, letting `h1 = Hash128(e, seed 0) mod m` and
`h2 = Hash128(e, seed 32) mod m`, `add` succeeds and sets exactly the
positions `{h1} ∪ {((h1 + i*h2) mod 2 ^ 64) mod m : i = 1 .. k-1}` — the
sum `h1 + i*h2` wraps at `2 ^ 64` (`u64`) before the final `mod m` —
leaving every other bit unchanged, and `contains` returns `true` iff all
of those positions are set. -/
theorem C2_probe_positions (H : Bytes → Nat → Nat) (f : BloomFilter)
    (e : Bytes) (hv : valid f) (hm : f.config.size ≠ 0)
    (h64 : f.config.size < 2 ^ 64) :
    ∃ f', BloomFilter.add H f e = some f' ∧ f'.config = f.config ∧
      (∀ j : Nat, j < f.config.size → BloomFilter.get f' j =
        some (f.bit_set.bits.getD j false ||
          decide (j ∈ probes H e f.config.size f.config.hashes))) ∧
      BloomFilter.contains H f e =
        some ((probes H e f.config.size f.config.hashes).all
          fun p => f.bit_set.bits.getD p false) ∧
      probes H e f.config.size f.config.hashes =
        (H e 0 % 2 ^ 128 % f.config.size) ::
          (List.range' 1 (f.config.hashes - 1)).map
            fun i => (H e 0 % 2 ^ 128 % f.config.size +
              i * (H e 32 % 2 ^ 128 % f.config.size)) %
                2 ^ 64 % f.config.size := by
  have hvlen : f.bit_set.bits.length = f.config.size := hv
  have hlt : ∀ p ∈ probes H e f.config.size f.config.hashes,
      p < f.bit_set.len := by
    intro p hp
    show p < f.bit_set.bits.length
    rw [hvlen]
    exact probes_lt H _ hm h64 p hp
  refine ⟨_, @add_eq_some H f e hv hm h64, rfl, ?_, ?_, ?_⟩
  · intro j hj
    have hjlen : j < f.bit_set.bits.length := by omega
    show (setTrue f.bit_set.bits
      (combined H e f.config.size f.config.hashes ++
        [h1 H e f.config.size]))[j]? = _
    by_cases hmem : j ∈ probes H e f.config.size f.config.hashes
    · rw [setTrue_getElem?_of_mem (mem_probes.2 hmem)
        (fun q hq => hlt q (mem_probes.1 hq))]
      simp [hmem]
    · rw [setTrue_getElem?_of_not_mem (fun hc => hmem (mem_probes.1 hc))]
      simp [hmem, List.getD_eq_getElem?_getD, List.getElem?_eq_getElem hjlen]
  · exact bit_check_eq_all hm h64 hlt
  · have hmm : f.config.size % 2 ^ 64 = f.config.size := Nat.mod_eq_of_lt h64
    have hh1 : h1 H e f.config.size = H e 0 % 2 ^ 128 % f.config.size := by
      rw [h1, Nat.mod_eq_of_lt
        (lt_trans (Nat.mod_lt _ (Nat.pos_of_ne_zero hm)) h64)]
    have hh2 : h2 H e f.config.size = H e 32 % 2 ^ 128 % f.config.size := by
      rw [h2, Nat.mod_eq_of_lt
        (lt_trans (Nat.mod_lt _ (Nat.pos_of_ne_zero hm)) h64)]
    rw [probes, combined, hh1, hh2, hmm]
    rfl

theorem C2_witness :
    valid (BloomFilter.new ⟨8, 1⟩) ∧
    (⟨8, 1⟩ : FilterBuilder).size ≠ 0 ∧
    (⟨8, 1⟩ : FilterBuilder).size < 2 ^ 64 ∧
    ∃ f', BloomFilter.add hashW (BloomFilter.new ⟨8, 1⟩) [] = some f' ∧
      f'.config = (BloomFilter.new ⟨8, 1⟩).config ∧
      (∀ j : Nat, j < (BloomFilter.new ⟨8, 1⟩).config.size →
        BloomFilter.get f' j =
          some ((BloomFilter.new ⟨8, 1⟩).bit_set.bits.getD j false ||
            decide (j ∈ probes hashW [] (BloomFilter.new ⟨8, 1⟩).config.size
              (BloomFilter.new ⟨8, 1⟩).config.hashes))) ∧
      BloomFilter.contains hashW (BloomFilter.new ⟨8, 1⟩) [] =
        some ((probes hashW [] (BloomFilter.new ⟨8, 1⟩).config.size
          (BloomFilter.new ⟨8, 1⟩).config.hashes).all
            fun p => (BloomFilter.new ⟨8, 1⟩).bit_set.bits.getD p false) ∧
      probes hashW [] (BloomFilter.new ⟨8, 1⟩).config.size
          (BloomFilter.new ⟨8, 1⟩).config.hashes =
        (hashW [] 0 % 2 ^ 128 % (BloomFilter.new ⟨8, 1⟩).config.size) ::
          (List.range' 1 ((BloomFilter.new ⟨8, 1⟩).config.hashes - 1)).map
            fun i => (hashW [] 0 % 2 ^ 128 %
                (BloomFilter.new ⟨8, 1⟩).config.size +
              i * (hashW [] 32 % 2 ^ 128 %
                (BloomFilter.new ⟨8, 1⟩).config.size)) %
                  2 ^ 64 % (BloomFilter.new ⟨8, 1⟩).config.size :=
  ⟨by decide, by decide, by decide,
    C2_probe_positions hashW (BloomFilter.new ⟨8, 1⟩) [] (by decide)
      (by decide) (by decide)⟩

/-! ## Byte-array round trip -/

theorem bits_byte_roundtrip : ∀ a b c d e f g h : Bool,
    bitsOfByte (byteOf [a, b, c, d, e, f, g, h]) = [a, b, c, d, e, f, g, h] := by
  decide

theorem from_to_bytes : ∀ l : List Bool, l.length % 8 = 0 →
    ((bytesOfBits l).map bitsOfByte).flatten = l
  | [], _ => rfl
  | a :: b :: c :: d :: e :: f :: g :: hh :: rest, h => by
    have hr : rest.length % 8 = 0 := by
      simp at h
      omega
    rw [show bytesOfBits (a :: b :: c :: d :: e :: f :: g :: hh :: rest) =
      byteOf [a, b, c, d, e, f, g, hh] :: bytesOfBits rest from rfl]
    rw [List.map_cons, List.flatten_cons, bits_byte_roundtrip a b c d e f g hh,
      from_to_bytes rest hr]
    rfl
  | [a], h => by simp at h
  | [a, b], h => by simp at h
  | [a, b, c], h => by simp at h
  | [a, b, c, d], h => by simp at h
  | [a, b, c, d, e], h => by simp at h
  | [a, b, c, d, e, f], h => by simp at h
  | [a, b, c, d, e, f, g], h => by simp at h

theorem bytesOfBits_length : ∀ l : List Bool, l.length % 8 = 0 →
    (bytesOfBits l).length * 8 = l.length
  | [], _ => rfl
  | a :: b :: c :: d :: e :: f :: g :: hh :: rest, h => by
    have hr : rest.length % 8 = 0 := by
      simp at h
      omega
    rw [show bytesOfBits (a :: b :: c :: d :: e :: f :: g :: hh :: rest) =
      byteOf [a, b, c, d, e, f, g, hh] :: bytesOfBits rest from rfl]
    have := bytesOfBits_length rest hr
    simp only [List.length_cons]
    simp only [List.length_cons] at this ⊢
    omega
  | [a], h => by simp at h
  | [a, b], h => by simp at h
  | [a, b, c], h => by simp at h
  | [a, b, c, d], h => by simp at h
  | [a, b, c, d, e], h => by simp at h
  | [a, b, c, d, e, f], h => by simp at h
  | [a, b, c, d, e, f, g], h => by simp at h

/-- Hash function for the C4 counterexample: every hash value is 6. -/
def hashC4 : Bytes → Nat → Nat := fun _ _ => 6

/-- C4 (counterexample) — A filter of size 4 (not a multiple of 8) with
one hash: after inserting `[]` (which sets bit `6 mod 4 = 2`), the
original filter reports `contains [] = true`, but the filter rebuilt via
`from_u8_array(get_u8_array(), 1)` has size `8` and probes bit
`6 mod 8 = 6`, reporting `contains [] = false`. -/
theorem C4_counterexample :
    (BloomFilter.add hashC4
        (BloomFilter.from_bit_vec ⟨List.replicate 4 false⟩ 1) []).map
      (fun f1 => (BloomFilter.contains hashC4 f1 [],
        BloomFilter.contains hashC4
          (BloomFilter.from_u8_array (BloomFilter.get_u8_array f1) 1) [])) =
      some (some true, some false) := by
  decide

/-- C4 (amended) — Round-trip serialization: for every valid filter,
`from_bit_vec(get_bit_vec(), hashes)` rebuilds a filter equal to the
original (hence with identical `contains` behaviour for every element);
`from_u8_array(get_u8_array(), hashes)` does the same provided
`config.size` is a multiple of 8 (otherwise the rebuilt filter's size is
padded up to the next byte boundary and `contains` can differ, see the
counterexample). -/
theorem C4_roundtrip (H : Bytes → Nat → Nat) (f : BloomFilter)
    (hv : valid f) :
    BloomFilter.from_bit_vec (BloomFilter.get_bit_vec f) f.config.hashes
        = f ∧
    (∀ e : Bytes, BloomFilter.contains H
      (BloomFilter.from_bit_vec (BloomFilter.get_bit_vec f)
        f.config.hashes) e = BloomFilter.contains H f e) ∧
    (f.config.size % 8 = 0 →
      BloomFilter.from_u8_array (BloomFilter.get_u8_array f)
          f.config.hashes = f ∧
      ∀ e : Bytes, BloomFilter.contains H
        (BloomFilter.from_u8_array (BloomFilter.get_u8_array f)
          f.config.hashes) e = BloomFilter.contains H f e) := by
  obtain ⟨⟨size, hashes⟩, ⟨bits⟩⟩ := f
  have hvlen : bits.length = size := hv
  have hbv : BloomFilter.from_bit_vec
      (BloomFilter.get_bit_vec ⟨⟨size, hashes⟩, ⟨bits⟩⟩) hashes =
      ⟨⟨size, hashes⟩, ⟨bits⟩⟩ := by
    simp [BloomFilter.from_bit_vec, BloomFilter.get_bit_vec,
      FilterBuilder.from_size_and_hashes, FilterBuilder.complete,
      BitVec.len, hvlen]
  refine ⟨hbv, fun e => by rw [hbv], fun h8 => ?_⟩
  have hlen8 : bits.length % 8 = 0 := by
    rw [hvlen]
    exact h8
  have hu8 : BloomFilter.from_u8_array
      (BloomFilter.get_u8_array ⟨⟨size, hashes⟩, ⟨bits⟩⟩) hashes =
      ⟨⟨size, hashes⟩, ⟨bits⟩⟩ := by
    simp only [BloomFilter.from_u8_array, BloomFilter.get_u8_array,
      BitVec.to_bytes, BitVec.from_bytes, FilterBuilder.from_size_and_hashes,
      FilterBuilder.complete]
    rw [from_to_bytes bits hlen8, bytesOfBits_length bits hlen8, hvlen]
  exact ⟨hu8, fun e => by rw [hu8]⟩

theorem C4_witness :
    valid filterW ∧
    BloomFilter.from_bit_vec (BloomFilter.get_bit_vec filterW)
      filterW.config.hashes = filterW :=
  ⟨by decide, (C4_roundtrip hashW filterW (by decide)).1⟩

end Fastbloom
